import Mathlib

/-!
Verification of the snakenest answer-set parser (`parse.py`) against its
specification.  The program text is shallowly embedded: Python strings become
`List Char`, raised exceptions become `Except Err`, and every function is
translated branch-for-branch from the source.
-/

set_option maxHeartbeats 1000000

/-- The exceptions the parser can raise.  `ValueError`s carry the context
payload that the Python message interpolates (the surrounding text snippet or
the offending term); `nameErr` models the `NameError` raised at
`parse.py:223`, where the unterminated-quote branch of `intended_name`
references the undefined variable `text` while building its message, so the
intended `ValueError` is never constructed.  `typeErrMissingArg` models the
`TypeError` raised by the interpreter when a call supplies fewer positional
arguments than a function requires (see `Predicate.__getitem__`). -/
inductive Err where
  | configQuote : Err
  | configParen : Err
  | extraParen : List Char → Err
  | unterminatedQuote : List Char → Err
  | missingParen : List Char → Err
  | malformedPredicate : List Char → Err
  | nameErr : Err
  | typeErrMissingArg : Err
  | indexErr : Err
deriving Repr, DecidableEq

/-- Module-level constant `quotecontext = 5` from `parse.py:26`. -/
def quotecontext : Nat := 5

/-- The scanner's loop state: `inquote`, `escaped`, `pdepth`, `lastquote`
from `parse.py:140-144`.  `pdepth` is an `Int` because the Python value can
only be observed going negative (which raises). -/
structure ScanSt where
  inquote : Bool
  escaped : Bool
  pdepth : Int
  lastquote : Option Nat
deriving Repr, DecidableEq

/-- The `for i, c in enumerate(text)` loop of `scan` (`parse.py:145-166`),
one constructor branch per `if`/`elif`, in source order.  `full` is the whole
text being scanned (used for the extra-paren error context `text[:i+1]`),
`i` the index of the head of the remaining text.  The result is either the
extra-closing-paren error, or `(some i, st)` when the loop `break`s at index
`i`, or `(none, st)` when the loop runs off the end, `st` being the state at
that moment. -/
def scanLoop (target : Char) (hq hp : Bool) (full : List Char) :
    List Char → Nat → ScanSt → Except Err (Option Nat × ScanSt)
  | [], _, st => .ok (none, st)
  | c :: rest, i, st =>
    if st.escaped then
      scanLoop target hq hp full rest (i + 1) { st with escaped := false }
    else if c = '\\' then
      scanLoop target hq hp full rest (i + 1) { st with escaped := true }
    else if c = '"' ∧ hq then
      scanLoop target hq hp full rest (i + 1)
        { st with inquote := !st.inquote, lastquote := some i }
    else if c = '(' ∧ hp ∧ st.inquote = false then
      scanLoop target hq hp full rest (i + 1) { st with pdepth := st.pdepth + 1 }
    else if c = ')' ∧ hp ∧ st.inquote = false then
      if st.pdepth - 1 < 0 then .error (.extraParen (full.take (i + 1)))
      else scanLoop target hq hp full rest (i + 1) { st with pdepth := st.pdepth - 1 }
    else if c = target ∧ st.inquote = false ∧ st.pdepth = 0 then
      .ok (some i, st)
    else
      scanLoop target hq hp full rest (i + 1) st

/-- The context snippet `text[max(0, lastquote-quotecontext):lastquote+quotecontext]`
used by the mismatched-quote message (`parse.py:170`).  When `lastquote` is
`none` the Python slice would itself fail, but that state is unreachable
(`inquote` only becomes true together with `lastquote` being set). -/
def quoteSnippet (text : List Char) (lastquote : Option Nat) : List Char :=
  match lastquote with
  | none => []
  | some lq => (text.drop (lq - quotecontext)).take (lq + quotecontext - (lq - quotecontext))

/-- `scan(text, target, honorquotes, honorparens)` from `parse.py:117-184`,
returning the pair `(text[:end], text[end+1:])` on a split and `(text, none)`
when no qualifying target occurs.  Branches in source order: the empty-text
early return precedes the two configuration checks; after the loop the
mismatched-quote and missing-paren checks precede the `text[end] == target`
test (`end` being the index of the last character examined). -/
def scan (text : List Char) (target : Char) (hq hp : Bool) :
    Except Err (List Char × Option (List Char)) :=
  if text = [] then .ok ([], none)
  else if target = '"' ∧ hq then .error .configQuote
  else if (target = '(' ∨ target = ')') ∧ hp then .error .configParen
  else
    match scanLoop target hq hp text text 0 ⟨false, false, 0, none⟩ with
    | .error e => .error e
    | .ok (broke, st) =>
      if st.inquote then .error (.unterminatedQuote (quoteSnippet text st.lastquote))
      else if st.pdepth ≠ 0 then .error (.missingParen (text.take (text.length - 1 + 1)))
      else if text.get? (broke.getD (text.length - 1)) = some target then
        .ok (text.take (broke.getD (text.length - 1)),
          some (text.drop (broke.getD (text.length - 1) + 1)))
      else .ok (text, none)

/-- The character loop of `intended_name` (`parse.py:204-219`), carrying
`inquote`, `escaped` and the accumulated `result`.  The final
`if inquote: raise` (`parse.py:220-226`) interpolates the undefined variable
`text`, so Python raises `NameError` there; we model that outcome as
`Err.nameErr`.  (`lastquote` is tracked by the source but is only mentioned
inside that broken message, so it does not influence any observable result
and is omitted from the state.) -/
def nameLoop : List Char → Bool → Bool → List Char → Except Err (List Char)
  | [], inquote, _, result =>
    if inquote then .error .nameErr else .ok result
  | c :: rest, inquote, escaped, result =>
    if escaped then
      if c = '\\' then nameLoop rest inquote false (result ++ ['\\'])
      else if c = '"' then nameLoop rest inquote false (result ++ ['"'])
      else nameLoop rest inquote false (result ++ ['\\', c])
    else if c = '\\' then nameLoop rest inquote true result
    else if c = '"' then nameLoop rest (!inquote) escaped result
    else nameLoop rest inquote escaped (result ++ [c])

/-- `intended_name(name)` from `parse.py:186-227`: strips structural quotes,
resolves `\\` and `\"`, passes unrecognized escapes through as the literal
two-character sequence. -/
def intended_name (name : List Char) : Except Err (List Char) :=
  nameLoop name false false []

example : scan [] ',' true false = .ok ([], none) := rfl
example : scan ['a', 'b'] 'b' true false = .ok (['a'], some []) := rfl
example : scan ['a', '\\', ','] ',' true false = .ok (['a', '\\'], some []) := rfl
example : scan ['"', 'a', ',', '"', ','] ',' true false = .ok (['"', 'a', ',', '"'], some []) := rfl
example : intended_name ['f', '"', '(', '"', 'x'] = .ok ['f', '(', 'x'] := rfl
example : intended_name ['"', 'a', 'b'] = .error .nameErr := rfl

/-- `Predicate` (`parse.py:319-391`): an immutable tree node with a name and
an ordered tuple of child predicates. -/
inductive Predicate where
  | mk (name : List Char) (children : List Predicate)

/-- `Predicate.name` property (`parse.py:350-353`). -/
def Predicate.name : Predicate → List Char
  | .mk n _ => n

/-- `Predicate.children` property (`parse.py:355-358`). -/
def Predicate.children : Predicate → List Predicate
  | .mk _ cs => cs

/-- `Predicate.arity` (`parse.py:329`, `360-363`): stored at construction as
`len(self.children)` and never updated, so it is modelled as the derived
value. -/
def Predicate.arity (p : Predicate) : Nat :=
  p.children.length

mutual

/-- `Predicate._strings` (`parse.py:330-332`): the predicate's own name plus
the union of the `strings` of its children.  The Python value is a `set`;
it is modelled as a duplicate-free list (`dedup`), since every use of the
set (index keys, bucket membership) depends only on which names are in it. -/
def Predicate.strings : Predicate → List (List Char)
  | .mk n cs => (n :: stringsOfChildren cs).dedup

/-- The union of the `strings` sets of a list of children (the loop of
`parse.py:331-332`), before duplicate removal. -/
def stringsOfChildren : List Predicate → List (List Char)
  | [] => []
  | c :: cs => Predicate.strings c ++ stringsOfChildren cs

end

mutual

/-- All strict descendants of a predicate: its children and, transitively,
their descendants.  Not a function of the source (which never collects
descendants explicitly); it names the "every descendant `c`, transitively"
quantifier of the spec's invariant. -/
def Predicate.descendants : Predicate → List Predicate
  | .mk _ cs => descendantsOfChildren cs

/-- Descendants contributed by a list of children: each child and its own
descendants. -/
def descendantsOfChildren : List Predicate → List Predicate
  | [] => []
  | c :: cs => c :: Predicate.descendants c ++ descendantsOfChildren cs

end

/-- The quoting test of `Predicate.__str__` (`parse.py:336-340`): the name is
rendered quoted when it contains a space, a parenthesis, a backslash or a
double quote. -/
def needsQuoting (n : List Char) : Bool :=
  n.any fun c => c = ' ' ∨ c = '(' ∨ c = ')' ∨ c = '\\' ∨ c = '"'

/-- `name.replace('\\', '\\\\').replace('"', '\\"')` (`parse.py:341`).  The
two sequential replacements never interact (doubling a backslash introduces
no quote, and the quote replacement introduces backslashes only before
quotes already escaped), so they equal this single per-character pass. -/
def escapeName (n : List Char) : List Char :=
  n.flatMap fun c =>
    if c = '\\' then ['\\', '\\']
    else if c = '"' then ['\\', '"']
    else [c]

mutual

/-- `Predicate.__str__` (`parse.py:334-348`): the (possibly quoted) name,
followed by the comma-joined children in parentheses when the children tuple
is nonempty. -/
def Predicate.str : Predicate → List Char
  | .mk n cs =>
    let nm := if needsQuoting n then '"' :: (escapeName n ++ ['"']) else n
    if cs.isEmpty then nm else nm ++ '(' :: (strJoinComma cs ++ [')'])

/-- `','.join(str(c) for c in self.children)` (`parse.py:345`). -/
def strJoinComma : List Predicate → List Char
  | [] => []
  | [p] => Predicate.str p
  | p :: q :: rest => Predicate.str p ++ ',' :: strJoinComma (q :: rest)

end

/-- `AnswerSet` (`parse.py:229-317`).  `set_number` is the attribute that
`parse_set`/`parse_raw` attach after construction (`parse.py:74,84`); an
`AnswerSet` built by `lookup` never receives one, which we model as `0`
(the spec's default).  The two indexes `_byname` and `_bystrings` are
derived deterministically from `predicates` in `__init__`
(`parse.py:243-252`), so they are modelled as the functions below instead
of stored fields. -/
structure AnswerSet where
  predicates : List Predicate
  set_number : Int

/-- The bucket `_byname[k]` (`parse.py:244-247`): the top-level predicates
whose own name is `k`, in insertion order; `[]` when the key is absent. -/
def AnswerSet.byname (A : AnswerSet) (k : List Char) : List Predicate :=
  A.predicates.filter fun p => p.name = k

/-- The bucket `_bystrings[k]` (`parse.py:248-252`): the top-level predicates
whose `strings` set contains `k`, in insertion order.  Each predicate is
appended at most once per key because `p.strings` is a set. -/
def AnswerSet.bystrings (A : AnswerSet) (k : List Char) : List Predicate :=
  A.predicates.filter fun p => k ∈ p.strings

/-- The keys of `_byname`, one per distinct top-level name.  Python's dict
iteration order is not guaranteed (the docstring of `lookup` says as much
of result order), so one concrete duplicate-free enumeration is fixed. -/
def AnswerSet.nameKeys (A : AnswerSet) : List (List Char) :=
  (A.predicates.map Predicate.name).dedup

/-- The keys of `_bystrings`, one per distinct name occurring in any
top-level predicate's `strings` set; same iteration-order caveat. -/
def AnswerSet.stringKeys (A : AnswerSet) : List (List Char) :=
  (A.predicates.flatMap Predicate.strings).dedup

/-- `AnswerSet.lookup` (`parse.py:284-317`): chooses the index (`_bystrings`
when `anynested`, else `_byname`); with `fuzzy` it concatenates the buckets
of every key that contains the search string as a substring, otherwise it
returns the exact bucket (empty set when the key is absent).  The result is
always a fresh `AnswerSet`. -/
def AnswerSet.lookup (A : AnswerSet) (name : List Char) (anynested fuzzy : Bool) :
    AnswerSet :=
  let keys := if anynested then A.stringKeys else A.nameKeys
  let bucket := fun k => if anynested then A.bystrings k else A.byname k
  if fuzzy then
    ⟨(keys.filter fun k => decide (List.IsInfix name k)).flatMap bucket, 0⟩
  else if name ∈ keys then ⟨bucket name, 0⟩
  else ⟨[], 0⟩

/-- The `__eq__` of `AnswerSet` (`parse.py:267-268`): structural equality of
the `predicates` tuples only (`set_number` and the indexes do not take
part). -/
def AnswerSet.eqPy (A B : AnswerSet) : Prop :=
  A.predicates = B.predicates

/-- The number of positional arguments (after `self`) that
`Predicate.__getitem__` requires: its `def` line (`parse.py:376`) declares
`(self, key, value)`, so two. -/
def getitemRequiredArgs : Nat := 2

/-- The subscript operation `p[key]`.  Python's `p[key]` calls
`type(p).__getitem__(p, key)` with exactly one argument after `self`; since
the method requires two (`getitemRequiredArgs`), the interpreter raises
`TypeError` before the body runs.  The body (`parse.py:377-382`) is modelled
in the unreachable branch: a valid index returns the child, other integers
raise `IndexError` (with `key` an integer here, the final `TypeError`
branch of the body is dead). -/
def Predicate.subscript (p : Predicate) (key : Int) : Except Err Predicate :=
  if getitemRequiredArgs ≠ 1 then .error .typeErrMissingArg
  else if h : 0 ≤ key ∧ key < p.arity then
    .ok (p.children.get ⟨key.toNat, by
      simp only [Predicate.arity] at h
      omega⟩)
  else .error .indexErr

example : Predicate.strings (.mk ['a'] [.mk ['b'] [], .mk ['a'] []]) = [['b'], ['a']] := rfl
example : Predicate.str (.mk ['f'] [.mk ['a', ' '] [], .mk ['b'] []])
    = ['f', '(', '"', 'a', ' ', '"', ',', 'b', ')'] := rfl


/-- Inversion for a successful `scan`: either no qualifying target was found
and the whole input came back as the prefix, or the input was split at a
valid index.  Supports the termination argument of the parser below. -/
theorem scan_ok_inv {text : List Char} {t : Char} {hq hp : Bool}
    {pre : List Char} {more : Option (List Char)}
    (h : scan text t hq hp = .ok (pre, more)) :
    (more = none ∧ pre = text) ∨
      ∃ endv, endv < text.length ∧ pre = text.take endv ∧
        more = some (text.drop (endv + 1)) := by
  unfold scan at h
  split at h
  · rename_i hnil
    subst hnil
    simp only [Except.ok.injEq, Prod.mk.injEq] at h
    exact Or.inl ⟨h.2.symm, h.1.symm⟩
  split at h
  · simp at h
  split at h
  · simp at h
  split at h
  · simp at h
  split at h
  · simp at h
  split at h
  · simp at h
  split at h
  · rename_i hget
    simp only [Except.ok.injEq, Prod.mk.injEq] at h
    obtain ⟨hlt, -⟩ := List.get?_eq_some.mp hget
    exact Or.inr ⟨_, hlt, h.1.symm, h.2.symm⟩
  · simp only [Except.ok.injEq, Prod.mk.injEq] at h
    exact Or.inl ⟨h.2.symm, h.1.symm⟩

/-- When `scan` splits, the prefix and remainder are strictly shorter than
the input. -/
theorem scan_ok_some_length {text : List Char} {t : Char} {hq hp : Bool}
    {pre rest : List Char}
    (h : scan text t hq hp = .ok (pre, some rest)) :
    pre.length + rest.length + 1 = text.length := by
  rcases scan_ok_inv h with ⟨hnone, -⟩ | ⟨endv, hlt, hpre, hrest⟩
  · exact absurd hnone (by simp)
  · simp only [Option.some.injEq] at hrest
    subst hpre hrest
    simp only [List.length_take, List.length_drop]
    omega

/-- When `scan` finds no qualifying target, the prefix is the whole input
(the empty-input return at `parse.py:135` and the fall-through at
`parse.py:184`). -/
theorem scan_ok_none_eq {text : List Char} {t : Char} {hq hp : Bool}
    {pre : List Char}
    (h : scan text t hq hp = .ok (pre, none)) : pre = text := by
  rcases scan_ok_inv h with ⟨-, hpre⟩ | ⟨endv, -, -, hrest⟩
  · exact hpre
  · exact absurd hrest (by simp)

mutual

/-- `parse_predicate(term)` from `parse.py:87-104`: scan for the first
unescaped, unquoted `(`; decode the name; with no remainder (`scan` returned
`None`) or an empty remainder (`(` was the last character — both are falsy
to the `if not tail` test at `parse.py:94`) return a leaf; otherwise demand
the term end in `)` (else `MalformedPredicate` carrying the term) and parse
the argument block, stripped of that final `)`, into the children. -/
def parse_predicate (term : List Char) : Except Err Predicate :=
  match h1 : scan term '(' true false with
  | .error e => .error e
  | .ok (rawname, tl) =>
    match intended_name rawname with
    | .error e => .error e
    | .ok name =>
      match tl with
      | none => .ok (.mk name [])
      | some tail =>
        if tail = [] then .ok (.mk name [])
        else if tail.getLast? = some ')' then
          match parse_children tail.dropLast with
          | .error e => .error e
          | .ok cs => .ok (.mk name cs)
        else .error (.malformedPredicate term)
termination_by 2 * term.length
decreasing_by
  have := scan_ok_some_length h1
  simp only [List.length_dropLast]
  omega

/-- `parse_children(tail)` from `parse.py:106-115`: scan for a top-level
comma (quotes and parens honored).  With no comma, or with a comma that ends
the text (the remainder `''` is falsy to `if not tail` at `parse.py:112`),
the result is the single child before it; otherwise the remaining children
are parsed first (`parse.py:114`) and the head child's parse is prepended
(`parse.py:115`). -/
def parse_children (tail : List Char) : Except Err (List Predicate) :=
  match h2 : scan tail ',' true true with
  | .error e => .error e
  | .ok (child, tl) =>
    match tl with
    | none =>
      match parse_predicate child with
      | .error e => .error e
      | .ok p => .ok [p]
    | some rest =>
      if rest = [] then
        match parse_predicate child with
        | .error e => .error e
        | .ok p => .ok [p]
      else
        match parse_children rest with
        | .error e => .error e
        | .ok others =>
          match parse_predicate child with
          | .error e => .error e
          | .ok p => .ok (p :: others)
termination_by 2 * tail.length + 1
decreasing_by
  · have := scan_ok_none_eq h2
    subst this
    omega
  · have := scan_ok_some_length h2
    omega
  · have := scan_ok_some_length h2
    omega
  · have := scan_ok_some_length h2
    omega

end

/-- The `while tail:` loop of `parse_set` (`parse.py:76-82`), entered with a
nonempty (truthy) `tail`: split off the next space-separated term, parse and
append it, and continue while the remainder is truthy — both `None` (no
space found) and `''` (the space was the last character) end the loop. -/
def parse_set_loop (tail : List Char) : Except Err (List Predicate) :=
  match h3 : scan tail ' ' true false with
  | .error e => .error e
  | .ok (term, tl) =>
    match parse_predicate term with
    | .error e => .error e
    | .ok p =>
      match tl with
      | none => .ok [p]
      | some rest =>
        if rest = [] then .ok [p]
        else
          match parse_set_loop rest with
          | .error e => .error e
          | .ok ps => .ok (p :: ps)
termination_by tail.length
decreasing_by
  have := scan_ok_some_length h3
  omega

/-- `parse_set(line, set_number)` from `parse.py:64-85`: an empty (falsy)
line yields the empty `AnswerSet`; otherwise the loop above collects the
predicates, in input order. -/
def parse_set (line : List Char) (set_number : Int) : Except Err AnswerSet :=
  if line = [] then .ok ⟨[], set_number⟩
  else
    match parse_set_loop line with
    | .error e => .error e
    | .ok ps => .ok ⟨ps, set_number⟩

/-- `' '.join(str(p) for p in self._predicates)` (`parse.py:258-259`). -/
def strJoinSpace : List Predicate → List Char
  | [] => []
  | [p] => Predicate.str p
  | p :: q :: rest => Predicate.str p ++ ' ' :: strJoinSpace (q :: rest)

/-- `AnswerSet.__str__` (`parse.py:258-259`): the rendered predicates joined
by single spaces, in `predicates` order. -/
def AnswerSet.str (A : AnswerSet) : List Char :=
  strJoinSpace A.predicates

/-- A character that is inert for every scanner configuration the parser
uses and for the renderer's quoting rule: not a space, parenthesis,
backslash, double quote or comma. -/
def GoodChar (c : Char) : Prop :=
  c ≠ ' ' ∧ c ≠ '(' ∧ c ≠ ')' ∧ c ≠ '\\' ∧ c ≠ '"' ∧ c ≠ ','

instance (c : Char) : Decidable (GoodChar c) := by
  unfold GoodChar; infer_instance

/-- A nonempty name all of whose characters are inert.  Such a name renders
bare and survives the scan/decode pipeline unchanged. -/
def GoodName (n : List Char) : Prop :=
  n ≠ [] ∧ ∀ c ∈ n, GoodChar c

instance (n : List Char) : Decidable (GoodName n) := by
  unfold GoodName; infer_instance

/-- A predicate whose own name and all of whose descendants' names are
`GoodName`s. -/
def GoodPred (p : Predicate) : Prop :=
  GoodName p.name ∧ ∀ q ∈ p.descendants, GoodName q.name

instance (p : Predicate) : Decidable (GoodPred p) := by
  unfold GoodPred; infer_instance

/-- The precondition as claim C6 states it: no name in the predicate (its
own or a descendant's) needs quoting, i.e. none contains a space,
parenthesis, backslash or quote (`needsQuoting`, `parse.py:336-340`). -/
def NoQuoteNeeded (p : Predicate) : Prop :=
  needsQuoting p.name = false ∧ ∀ q ∈ p.descendants, needsQuoting q.name = false

instance (p : Predicate) : Decidable (NoQuoteNeeded p) := by
  unfold NoQuoteNeeded; infer_instance

/-- `s` is transparent to a quote-honoring scan for `t` at parenthesis depth
`d`: the scanner walks over `s` without breaking, erroring or changing
state, whatever follows. -/
def Carries (t : Char) (hp : Bool) (d : Int) (s : List Char) : Prop :=
  ∀ (full rest : List Char) (i : Nat),
    scanLoop t true hp full (s ++ rest) i ⟨false, false, d, none⟩ =
      scanLoop t true hp full rest (i + s.length) ⟨false, false, d, none⟩

theorem carries_nil {t : Char} {hp : Bool} {d : Int} : Carries t hp d [] := by
  intro full rest i
  rfl

theorem carries_cons {t c : Char} {hp : Bool} {d : Int} {s : List Char}
    (hc1 : c ≠ '\\') (hc2 : c ≠ '"')
    (hc3 : hp = true → c ≠ '(' ∧ c ≠ ')')
    (hc4 : ¬(c = t ∧ d = 0))
    (h : Carries t hp d s) : Carries t hp d (c :: s) := by
  intro full rest i
  show scanLoop t true hp full (c :: (s ++ rest)) i ⟨false, false, d, none⟩ = _
  rw [scanLoop]
  simp only [if_neg (show ¬(ScanSt.mk false false d none).escaped by simp)]
  rw [if_neg hc1]
  rw [if_neg (by simp [hc2])]
  rw [if_neg (by rintro ⟨hcp, hhp, -⟩; exact (hc3 hhp).1 hcp)]
  rw [if_neg (by rintro ⟨hcp, hhp, -⟩; exact (hc3 hhp).2 hcp)]
  rw [if_neg (by rintro ⟨hct, -, hd0⟩; exact hc4 ⟨hct, hd0⟩)]
  rw [h full rest (i + 1), Nat.add_right_comm]
  rfl

theorem carries_append {t : Char} {hp : Bool} {d : Int} {s r : List Char}
    (hs : Carries t hp d s) (hr : Carries t hp d r) :
    Carries t hp d (s ++ r) := by
  intro full rest i
  rw [List.append_assoc, hs full (r ++ rest) i, hr full rest (i + s.length),
    List.length_append]
  rw [show i + s.length + r.length = i + (s.length + r.length) by omega]

theorem carries_of_chars {t : Char} {hp : Bool} {d : Int} {s : List Char}
    (h : ∀ c ∈ s, c ≠ '\\' ∧ c ≠ '"' ∧ (hp = true → c ≠ '(' ∧ c ≠ ')') ∧
      ¬(c = t ∧ d = 0)) : Carries t hp d s := by
  induction s with
  | nil => exact carries_nil
  | cons c s ih =>
    obtain ⟨h1, h2, h3, h4⟩ := h c (List.mem_cons_self c s)
    exact carries_cons h1 h2 h3 h4 (ih fun x hx => h x (List.mem_cons_of_mem _ hx))

/-- A parenthesized block is transparent at depth `d ≥ 0` to the
comma-scan with parens honored, as soon as its body is transparent one
level deeper. -/
theorem carries_wrap {d : Int} {s : List Char} (hd : 0 ≤ d)
    (h : Carries ',' true (d + 1) s) :
    Carries ',' true d ('(' :: (s ++ [')'])) := by
  intro full rest i
  rw [show (('(' :: (s ++ [')'])) ++ rest) = '(' :: (s ++ (')' :: rest)) by simp]
  rw [show ('(' :: (s ++ [')'])).length = s.length + 2 from by
    simp only [List.length_cons, List.length_append, List.length_nil]]
  rw [scanLoop]
  simp only [if_neg (show ¬(ScanSt.mk false false d none).escaped by simp)]
  rw [if_neg (by decide : ¬('(' : Char) = '\\')]
  rw [if_neg (by simp)]
  rw [if_pos (show _ ∧ _ ∧ _ by simp)]
  rw [show ({ ScanSt.mk false false d none with pdepth :=
    (ScanSt.mk false false d none).pdepth + 1 }) =
    ScanSt.mk false false (d + 1) none from rfl]
  rw [h full (')' :: rest) (i + 1)]
  rw [scanLoop]
  simp only [if_neg (show ¬(ScanSt.mk false false (d + 1) none).escaped by simp)]
  rw [if_neg (by decide : ¬(')' : Char) = '\\')]
  rw [if_neg (by simp)]
  rw [if_neg (by simp)]
  rw [if_pos (show _ ∧ _ ∧ _ by simp)]
  rw [if_neg (show ¬((ScanSt.mk false false (d + 1) none).pdepth - 1 < 0) from by
    show ¬((d + 1 : Int) - 1 < 0); omega)]
  show scanLoop ',' true true full rest (i + 1 + s.length + 1)
      (ScanSt.mk false false (d + 1 - 1) none) = _
  rw [show (d + 1 : Int) - 1 = d from by omega]
  rw [show i + 1 + s.length + 1 = i + (s.length + 2) from by omega]

/-- Running the scanner over a transparent string alone: it falls off the
end with the state unchanged. -/
theorem carries_run {t : Char} {hp : Bool} {d : Int} {s : List Char}
    (h : Carries t hp d s) (full : List Char) (i : Nat) :
    scanLoop t true hp full s i ⟨false, false, d, none⟩ =
      .ok (none, ⟨false, false, d, none⟩) := by
  have h0 := h full [] i
  rw [List.append_nil] at h0
  rw [h0]
  rfl

/-- A quote-honoring scan over a transparent string whose last character is
not the target finds no split point and returns the whole text with the
no-match sentinel. -/
theorem scan_no_split {t : Char} {hp : Bool} {s : List Char}
    (h : Carries t hp 0 s)
    (hlast : ∀ c, s.getLast? = some c → c ≠ t)
    (ht : t ≠ '"')
    (htp : ¬((t = '(' ∨ t = ')') ∧ hp = true)) :
    scan s t true hp = .ok (s, none) := by
  by_cases hs : s = []
  · subst hs; rfl
  · have hg : s.get? (s.length - 1) = s.getLast? := by
      rw [List.get?_eq_getElem?, List.getLast?_eq_getElem?]
    unfold scan
    rw [if_neg hs]
    rw [if_neg (by rintro ⟨h1, -⟩; exact ht h1)]
    rw [if_neg htp]
    rw [carries_run h s 0]
    dsimp only
    rw [if_neg (by simp)]
    rw [if_neg (by simp)]
    rw [if_neg (fun hcontra => hlast t (by rw [← hg]; exact hcontra) rfl)]

/-- A quote-honoring scan over a transparent prefix followed by a qualifying
target character splits exactly there. -/
theorem scan_split {t : Char} {hp : Bool} {pre rest : List Char}
    (h : Carries t hp 0 pre)
    (ht : t ≠ '"') (htb : t ≠ '\\')
    (htp : ¬((t = '(' ∨ t = ')') ∧ hp = true)) :
    scan (pre ++ t :: rest) t true hp = .ok (pre, rest) := by
  unfold scan
  rw [if_neg (by simp : ¬(pre ++ t :: rest = []))]
  rw [if_neg (by rintro ⟨h1, -⟩; exact ht h1)]
  rw [if_neg htp]
  rw [h (pre ++ t :: rest) (t :: rest) 0]
  rw [scanLoop]
  simp only [if_neg (show ¬(ScanSt.mk false false 0 none).escaped by simp)]
  rw [if_neg htb]
  rw [if_neg (by rintro ⟨h1, -⟩; exact ht h1)]
  rw [if_neg (by rintro ⟨h1, hhp, -⟩; exact htp ⟨Or.inl h1, hhp⟩)]
  rw [if_neg (by rintro ⟨h1, hhp, -⟩; exact htp ⟨Or.inr h1, hhp⟩)]
  rw [if_pos (show True ∧ True ∧ True from ⟨trivial, trivial, trivial⟩)]
  dsimp only
  rw [if_neg (by simp)]
  rw [if_neg (by simp)]
  rw [Nat.zero_add]
  simp only [Option.getD_some]
  rw [if_pos (show (pre ++ t :: rest).get? pre.length = some t by
    rw [List.get?_eq_getElem?, List.getElem?_append_right (Nat.le_refl _)]
    simp)]
  rw [List.take_left]
  rw [List.drop_append 1, List.drop_one, List.tail_cons]

/-- Structural induction for `Predicate` through its nested `List` of
children. -/
theorem Predicate.ind_nested {P : Predicate → Prop}
    (step : ∀ n cs, (∀ c ∈ cs, P c) → P (.mk n cs)) : ∀ p, P p := by
  have key : ∀ (N : Nat) (p : Predicate), sizeOf p ≤ N → P p := by
    intro N
    induction N with
    | zero =>
      intro p h
      obtain ⟨n, cs⟩ := p
      rw [Predicate.mk.sizeOf_spec] at h
      omega
    | succ N ih =>
      intro p h
      obtain ⟨n, cs⟩ := p
      apply step
      intro c hc
      apply ih
      have h1 := List.sizeOf_lt_of_mem hc
      rw [Predicate.mk.sizeOf_spec] at h
      omega
  exact fun p => key (sizeOf p) p (Nat.le_refl _)

/-- Membership in the descendants contributed by a list of children. -/
theorem mem_descendantsOfChildren {q : Predicate} {cs : List Predicate} :
    q ∈ descendantsOfChildren cs ↔ ∃ c ∈ cs, q = c ∨ q ∈ c.descendants := by
  induction cs with
  | nil => simp [descendantsOfChildren]
  | cons c cs ih =>
    rw [descendantsOfChildren]
    constructor
    · intro hq
      rcases List.mem_cons.mp hq with h | h
      · exact ⟨c, List.mem_cons_self c cs, Or.inl h⟩
      · rcases List.mem_append.mp h with h | h
        · exact ⟨c, List.mem_cons_self c cs, Or.inr h⟩
        · obtain ⟨c1, hc1, hh⟩ := ih.mp h
          exact ⟨c1, List.mem_cons_of_mem _ hc1, hh⟩
    · rintro ⟨c1, hc1, hh⟩
      rcases List.mem_cons.mp hc1 with h1 | h1
      · subst h1
        rcases hh with hh | hh
        · exact List.mem_cons.mpr (Or.inl hh)
        · exact List.mem_cons.mpr (Or.inr (List.mem_append.mpr (Or.inl hh)))
      · exact List.mem_cons.mpr (Or.inr (List.mem_append.mpr (Or.inr (ih.mpr ⟨c1, h1, hh⟩))))

/-- `GoodPred` at a constructor: a good name and good children. -/
theorem goodPred_mk {n : List Char} {cs : List Predicate} :
    GoodPred (.mk n cs) ↔ GoodName n ∧ ∀ c ∈ cs, GoodPred c := by
  unfold GoodPred
  rw [show (Predicate.mk n cs).name = n from rfl,
    show (Predicate.mk n cs).descendants = descendantsOfChildren cs from rfl]
  constructor
  · rintro ⟨hn, hall⟩
    refine ⟨hn, ?_⟩
    intro c hc
    show GoodName c.name ∧ ∀ q ∈ c.descendants, GoodName q.name
    constructor
    · exact hall c (mem_descendantsOfChildren.mpr ⟨c, hc, Or.inl rfl⟩)
    · intro q hq
      exact hall q (mem_descendantsOfChildren.mpr ⟨c, hc, Or.inr hq⟩)
  · rintro ⟨hn, hall⟩
    refine ⟨hn, fun q hq => ?_⟩
    obtain ⟨c, hc, hq | hq⟩ := mem_descendantsOfChildren.mp hq
    · rw [hq]
      exact (hall c hc).1
    · exact ((hall c hc).2 : ∀ r ∈ c.descendants, GoodName r.name) q hq

/-- A good name renders bare: the quoting test of `Predicate.__str__` is
false. -/
theorem goodName_noQuote {n : List Char} (h : GoodName n) :
    needsQuoting n = false := by
  unfold needsQuoting
  rw [List.any_eq_false]
  intro c hc
  obtain ⟨-, -, -, h4, h5, -⟩ := h.2 c hc
  obtain ⟨h1, h2, h3, -⟩ := h.2 c hc
  simp [h1, h2, h3, h4, h5]

/-- `Predicate.str` on a leaf with an unquoted name. -/
theorem str_leaf {n : List Char} (h : needsQuoting n = false) :
    Predicate.str (.mk n []) = n := by
  rw [Predicate.str, h]
  rfl

/-- `Predicate.str` on an inner node with an unquoted name. -/
theorem str_node {n : List Char} {cs : List Predicate} (h : needsQuoting n = false)
    (hcs : cs ≠ []) :
    Predicate.str (.mk n cs) = n ++ '(' :: (strJoinComma cs ++ [')']) := by
  rw [Predicate.str, h]
  rw [if_neg (by simp [hcs])]
  rw [if_neg (by simp [h])]

/-- `nameLoop` copies characters verbatim while no backslash or quote
occurs. -/
theorem nameLoop_plain {s : List Char} (h : ∀ c ∈ s, c ≠ '\\' ∧ c ≠ '"') :
    ∀ acc : List Char, nameLoop s false false acc = .ok (acc ++ s) := by
  induction s with
  | nil => intro acc; simp [nameLoop]
  | cons c s ih =>
    intro acc
    obtain ⟨h1, h2⟩ := h c (List.mem_cons_self c s)
    rw [nameLoop]
    rw [if_neg (by simp)]
    rw [if_neg h1, if_neg h2]
    rw [ih (fun x hx => h x (List.mem_cons_of_mem _ hx)) (acc ++ [c])]
    simp

/-- `intended_name` is the identity on names free of backslashes and
quotes. -/
theorem intended_name_plain {n : List Char} (h : ∀ c ∈ n, c ≠ '\\' ∧ c ≠ '"') :
    intended_name n = .ok n := by
  unfold intended_name
  rw [nameLoop_plain h []]
  rfl

/-- Characters of a comma-joined rendering list, given a bound on each
element's characters. -/
theorem strJoinComma_chars {Q : Char → Prop} :
    ∀ {cs : List Predicate},
    (∀ p ∈ cs, ∀ c ∈ Predicate.str p, Q c) → Q ',' →
    ∀ c ∈ strJoinComma cs, Q c := by
  intro cs
  induction cs with
  | nil =>
    intro _ _ c hc
    rw [strJoinComma] at hc
    cases hc
  | cons p cs ih =>
    intro h hcomma c hc
    cases cs with
    | nil =>
      rw [strJoinComma] at hc
      exact h p (List.mem_cons_self p []) c hc
    | cons q rest =>
      rw [strJoinComma] at hc
      rcases List.mem_append.mp hc with hc | hc
      · exact h p (List.mem_cons_self p (q :: rest)) c hc
      · rcases List.mem_cons.mp hc with hc | hc
        · rw [hc]; exact hcomma
        · exact ih (fun r hr => h r (List.mem_cons_of_mem _ hr)) hcomma c hc

/-- Every character of a good predicate's rendering is structural
(`(`, `)` or `,`) or a good character. -/
theorem str_chars :
    ∀ p : Predicate, GoodPred p →
    ∀ c ∈ Predicate.str p, (c = '(' ∨ c = ')' ∨ c = ',') ∨ GoodChar c := by
  intro p
  induction p using Predicate.ind_nested with
  | step n cs ih =>
    intro hp c hc
    rcases goodPred_mk.mp hp with ⟨hn, hcs⟩
    by_cases hnil : cs = []
    · subst hnil
      rw [str_leaf (goodName_noQuote hn)] at hc
      exact Or.inr (hn.2 c hc)
    · rw [str_node (goodName_noQuote hn) hnil] at hc
      rcases List.mem_append.mp hc with hc | hc
      · exact Or.inr (hn.2 c hc)
      · rcases List.mem_cons.mp hc with hc | hc
        · exact Or.inl (Or.inl hc)
        · rcases List.mem_append.mp hc with hc | hc
          · exact strJoinComma_chars
              (fun q hq ch hch => ih q hq (hcs q hq) ch hch)
              (Or.inl (Or.inr (Or.inr rfl))) c hc
          · rw [List.mem_singleton] at hc
            exact Or.inl (Or.inr (Or.inl hc))

/-- The comma-joined renderings of children are transparent to the comma
scan at depth ≥ 1 (inside their parent's parentheses). -/
theorem strJoinComma_carries {cs : List Predicate}
    (h : ∀ p ∈ cs, ∀ d : Int, 1 ≤ d → Carries ',' true d (Predicate.str p)) :
    ∀ d : Int, 1 ≤ d → Carries ',' true d (strJoinComma cs) := by
  induction cs with
  | nil =>
    intro d _
    rw [strJoinComma]
    exact carries_nil
  | cons p cs ih =>
    intro d hd
    cases cs with
    | nil =>
      rw [strJoinComma]
      exact h p (List.mem_cons_self p []) d hd
    | cons q rest =>
      rw [strJoinComma]
      refine carries_append (h p (List.mem_cons_self p (q :: rest)) d hd) ?_
      refine carries_cons (by decide) (by decide) (fun _ => ⟨by decide, by decide⟩)
        (by rintro ⟨-, hd0⟩; omega) ?_
      exact ih (fun r hr => h r (List.mem_cons_of_mem _ hr)) d hd

/-- A good rendering is transparent to the comma scan at any nonnegative
depth: its own commas sit strictly inside parentheses. -/
theorem str_carries_comma :
    ∀ p : Predicate, GoodPred p →
    ∀ d : Int, 0 ≤ d → Carries ',' true d (Predicate.str p) := by
  intro p
  induction p using Predicate.ind_nested with
  | step n cs ih =>
    intro hp d hd
    rcases goodPred_mk.mp hp with ⟨hn, hcs⟩
    by_cases hnil : cs = []
    · subst hnil
      rw [str_leaf (goodName_noQuote hn)]
      refine carries_of_chars ?_
      intro c hc
      obtain ⟨-, g2, g3, g4, g5, g6⟩ := hn.2 c hc
      exact ⟨g4, g5, fun _ => ⟨g2, g3⟩, by rintro ⟨hc6, -⟩; exact g6 hc6⟩
    · rw [str_node (goodName_noQuote hn) hnil]
      refine carries_append ?_ ?_
      · refine carries_of_chars ?_
        intro c hc
        obtain ⟨-, g2, g3, g4, g5, g6⟩ := hn.2 c hc
        exact ⟨g4, g5, fun _ => ⟨g2, g3⟩, by rintro ⟨hc6, -⟩; exact g6 hc6⟩
      · refine carries_wrap hd ?_
        exact strJoinComma_carries
          (fun q hq d1 hd1 => ih q hq (hcs q hq) d1 (by omega)) (d + 1) (by omega)

/-- A good rendering is transparent to the space scan (no spaces,
backslashes or quotes occur in it). -/
theorem str_carries_space :
    ∀ p : Predicate, GoodPred p → Carries ' ' false 0 (Predicate.str p) := by
  intro p hp
  refine carries_of_chars ?_
  intro c hc
  rcases str_chars p hp c hc with h | h
  · rcases h with h | h | h <;> subst h <;>
      exact ⟨by decide, by decide, fun h => absurd h (by decide), by decide⟩
  · obtain ⟨g1, -, -, g4, g5, -⟩ := h
    exact ⟨g4, g5, fun h => absurd h (by decide), by rintro ⟨h1, -⟩; exact g1 h1⟩

/-- A good name is transparent to the parenthesis scan used to split a term
into name and argument block. -/
theorem goodName_carries_paren {n : List Char} (hn : GoodName n) :
    Carries '(' false 0 n :=
  carries_of_chars fun c hc => by
    obtain ⟨-, g2, -, g4, g5, -⟩ := hn.2 c hc
    exact ⟨g4, g5, fun h => absurd h (by decide), by rintro ⟨h1, -⟩; exact g2 h1⟩

/-- A good rendering is nonempty. -/
theorem str_ne_nil : ∀ p : Predicate, GoodPred p → Predicate.str p ≠ [] := by
  intro p hp
  obtain ⟨n, cs⟩ := p
  rcases goodPred_mk.mp hp with ⟨hn, -⟩
  by_cases hnil : cs = []
  · subst hnil
    rw [str_leaf (goodName_noQuote hn)]
    exact hn.1
  · rw [str_node (goodName_noQuote hn) hnil]
    simp

/-- The last character of a good rendering is a good character or the
closing parenthesis. -/
theorem str_getLast :
    ∀ p : Predicate, GoodPred p → ∀ c, (Predicate.str p).getLast? = some c →
    GoodChar c ∨ c = ')' := by
  intro p hp c hc
  obtain ⟨n, cs⟩ := p
  rcases goodPred_mk.mp hp with ⟨hn, -⟩
  by_cases hnil : cs = []
  · subst hnil
    rw [str_leaf (goodName_noQuote hn)] at hc
    exact Or.inl (hn.2 c (List.mem_of_mem_getLast? hc))
  · rw [str_node (goodName_noQuote hn) hnil] at hc
    rw [show n ++ '(' :: (strJoinComma cs ++ [')']) =
      (n ++ '(' :: strJoinComma cs) ++ [')'] by simp] at hc
    rw [List.getLast?_concat] at hc
    exact Or.inr (Option.some.inj hc).symm

/-- The comma-joined rendering of a nonempty list of good children is
nonempty. -/
theorem strJoinComma_ne_nil {q : Predicate} {rest : List Predicate}
    (hq : GoodPred q) : strJoinComma (q :: rest) ≠ [] := by
  cases rest with
  | nil =>
    rw [strJoinComma]
    exact str_ne_nil q hq
  | cons r rest =>
    rw [strJoinComma]
    intro hcontra
    exact str_ne_nil q hq (List.append_eq_nil.mp hcontra).1

/-- Parsing the comma-joined renderings of good children recovers exactly
those children, in order. -/
theorem parse_children_join :
    ∀ cs : List Predicate, cs ≠ [] →
    (∀ c ∈ cs, GoodPred c) →
    (∀ c ∈ cs, parse_predicate (Predicate.str c) = .ok c) →
    parse_children (strJoinComma cs) = .ok cs := by
  intro cs
  induction cs with
  | nil => intro h; exact absurd rfl h
  | cons p cs ih =>
    intro _ hgood hparse
    have hgp := hgood p (List.mem_cons_self p cs)
    have hlastp : ∀ c, (Predicate.str p).getLast? = some c → c ≠ ',' := by
      intro c hcl
      rcases str_getLast p hgp c hcl with h | h
      · exact h.2.2.2.2.2
      · subst h; decide
    cases cs with
    | nil =>
      rw [strJoinComma]
      have hscan : scan (Predicate.str p) ',' true true =
          .ok (Predicate.str p, none) :=
        scan_no_split (str_carries_comma p hgp 0 (by omega)) hlastp
          (by decide) (by decide)
      rw [parse_children]
      split
      · rename_i e heq
        rw [hscan] at heq
        simp at heq
      · rename_i child tl heq
        rw [hscan] at heq
        simp only [Except.ok.injEq, Prod.mk.injEq] at heq
        obtain ⟨h1, h2⟩ := heq
        subst h1
        subst h2
        rw [hparse p (List.mem_cons_self p [])]
    | cons q rest =>
      rw [strJoinComma]
      have hscan : scan (Predicate.str p ++ ',' :: strJoinComma (q :: rest))
          ',' true true = .ok (Predicate.str p, strJoinComma (q :: rest)) :=
        scan_split (str_carries_comma p hgp 0 (by omega))
          (by decide) (by decide) (by decide)
      rw [parse_children]
      split
      · rename_i e heq
        rw [hscan] at heq
        simp at heq
      · rename_i child tl heq
        rw [hscan] at heq
        simp only [Except.ok.injEq, Prod.mk.injEq] at heq
        obtain ⟨h1, h2⟩ := heq
        subst h1
        subst h2
        dsimp only
        rw [if_neg (strJoinComma_ne_nil (hgood q (List.mem_cons_of_mem _ (List.mem_cons_self q rest))))]
        rw [ih (by simp) (fun c hc => hgood c (List.mem_cons_of_mem _ hc))
          (fun c hc => hparse c (List.mem_cons_of_mem _ hc))]
        rw [hparse p (List.mem_cons_self p (q :: rest))]

/-- Parsing the rendering of a good predicate recovers it exactly (the
predicate-level round trip). -/
theorem parse_str_good :
    ∀ p : Predicate, GoodPred p → parse_predicate (Predicate.str p) = .ok p := by
  intro p
  induction p using Predicate.ind_nested with
  | step n cs ih =>
    intro hp
    rcases goodPred_mk.mp hp with ⟨hn, hcs⟩
    have hnq := goodName_noQuote hn
    have hname : intended_name n = .ok n :=
      intended_name_plain fun c hc =>
        ⟨(hn.2 c hc).2.2.2.1, (hn.2 c hc).2.2.2.2.1⟩
    by_cases hnil : cs = []
    · subst hnil
      rw [str_leaf hnq]
      have hscan : scan n '(' true false = .ok (n, none) := by
        refine scan_no_split (goodName_carries_paren hn) ?_ (by decide) (by decide)
        intro c hcl
        exact (hn.2 c (List.mem_of_mem_getLast? hcl)).2.1
      rw [parse_predicate]
      split
      · rename_i e heq
        rw [hscan] at heq
        simp at heq
      · rename_i rawname tl heq
        rw [hscan] at heq
        simp only [Except.ok.injEq, Prod.mk.injEq] at heq
        obtain ⟨h1, h2⟩ := heq
        subst h1
        subst h2
        rw [hname]
    · rw [str_node hnq hnil]
      have hscan : scan (n ++ '(' :: (strJoinComma cs ++ [')'])) '(' true false =
          .ok (n, strJoinComma cs ++ [')']) :=
        scan_split (goodName_carries_paren hn) (by decide) (by decide) (by decide)
      rw [parse_predicate]
      split
      · rename_i e heq
        rw [hscan] at heq
        simp at heq
      · rename_i rawname tl heq
        rw [hscan] at heq
        simp only [Except.ok.injEq, Prod.mk.injEq] at heq
        obtain ⟨h1, h2⟩ := heq
        subst h1
        subst h2
        rw [hname]
        dsimp only
        rw [if_neg (by simp : ¬(strJoinComma cs ++ [')'] = []))]
        rw [if_pos (List.getLast?_concat _)]
        rw [List.dropLast_concat]
        rw [parse_children_join cs hnil hcs fun c hc => ih c hc (hcs c hc)]

/-- The space-joined rendering of a nonempty list of good predicates is
nonempty. -/
theorem strJoinSpace_ne_nil {p : Predicate} {rest : List Predicate}
    (hp : GoodPred p) : strJoinSpace (p :: rest) ≠ [] := by
  cases rest with
  | nil =>
    rw [strJoinSpace]
    exact str_ne_nil p hp
  | cons r rest =>
    rw [strJoinSpace]
    intro hcontra
    exact str_ne_nil p hp (List.append_eq_nil.mp hcontra).1

/-- The `parse_set` loop over the space-joined renderings of good
predicates recovers exactly those predicates, in order. -/
theorem parse_set_loop_join :
    ∀ ps : List Predicate, ps ≠ [] →
    (∀ p ∈ ps, GoodPred p) →
    parse_set_loop (strJoinSpace ps) = .ok ps := by
  intro ps
  induction ps with
  | nil => intro h; exact absurd rfl h
  | cons p ps ih =>
    intro _ hgood
    have hgp := hgood p (List.mem_cons_self p ps)
    have hlastp : ∀ c, (Predicate.str p).getLast? = some c → c ≠ ' ' := by
      intro c hcl
      rcases str_getLast p hgp c hcl with h | h
      · exact h.1
      · subst h; decide
    cases ps with
    | nil =>
      rw [strJoinSpace]
      have hscan : scan (Predicate.str p) ' ' true false =
          .ok (Predicate.str p, none) :=
        scan_no_split (str_carries_space p hgp) hlastp (by decide) (by decide)
      rw [parse_set_loop]
      split
      · rename_i e heq
        rw [hscan] at heq
        simp at heq
      · rename_i term tl heq
        rw [hscan] at heq
        simp only [Except.ok.injEq, Prod.mk.injEq] at heq
        obtain ⟨h1, h2⟩ := heq
        subst h1
        subst h2
        rw [parse_str_good p hgp]
    | cons q rest =>
      rw [strJoinSpace]
      have hscan : scan (Predicate.str p ++ ' ' :: strJoinSpace (q :: rest))
          ' ' true false = .ok (Predicate.str p, strJoinSpace (q :: rest)) :=
        scan_split (str_carries_space p hgp) (by decide) (by decide) (by decide)
      rw [parse_set_loop]
      split
      · rename_i e heq
        rw [hscan] at heq
        simp at heq
      · rename_i term tl heq
        rw [hscan] at heq
        simp only [Except.ok.injEq, Prod.mk.injEq] at heq
        obtain ⟨h1, h2⟩ := heq
        subst h1
        subst h2
        rw [parse_str_good p hgp]
        dsimp only
        rw [if_neg (strJoinSpace_ne_nil (hgood q (List.mem_cons_of_mem _ (List.mem_cons_self q rest))))]
        rw [ih (by simp) (fun r hr => hgood r (List.mem_cons_of_mem _ hr))]

/-- Parsing the rendering of an answer set of good predicates yields an
answer set with the same predicates tuple. -/
theorem parse_set_render (A : AnswerSet)
    (h : ∀ p ∈ A.predicates, GoodPred p) :
    parse_set (AnswerSet.str A) 0 = .ok ⟨A.predicates, 0⟩ := by
  unfold AnswerSet.str parse_set
  cases hps : A.predicates with
  | nil => rfl
  | cons p ps =>
    rw [if_neg (strJoinSpace_ne_nil (h p (by rw [hps]; exact List.mem_cons_self p ps)))]
    rw [parse_set_loop_join (p :: ps) (by simp)
      (fun r hr => h r (by rw [hps]; exact hr))]

/-- `parse_children` on the empty argument block (the inside of `name()`):
one synthetic child parsed from the empty term, whose name is empty. -/
theorem parse_children_nil : parse_children [] = .ok [.mk [] []] := by
  simp [parse_children, parse_predicate, scan, intended_name, nameLoop]

/-- Own name is always in the `strings` set. -/
theorem name_mem_strings : ∀ p : Predicate, p.name ∈ Predicate.strings p := by
  intro p
  obtain ⟨n, cs⟩ := p
  rw [Predicate.strings]
  exact List.mem_dedup.mpr (List.mem_cons_self n _)

/-- Strings of a member child are among the strings collected from the
children list. -/
theorem mem_stringsOfChildren {x : List Char} {c : Predicate} :
    ∀ {cs : List Predicate}, c ∈ cs → x ∈ Predicate.strings c →
    x ∈ stringsOfChildren cs := by
  intro cs
  induction cs with
  | nil => intro h; cases h
  | cons p cs ih =>
    intro hc hx
    rw [stringsOfChildren]
    rcases List.mem_cons.mp hc with h | h
    · subst h
      exact List.mem_append.mpr (Or.inl hx)
    · exact List.mem_append.mpr (Or.inr (ih h hx))

/-- A string of a child is a string of the parent. -/
theorem strings_mono {x : List Char} {c : Predicate} {n : List Char}
    {cs : List Predicate} (hc : c ∈ cs) (hx : x ∈ Predicate.strings c) :
    x ∈ Predicate.strings (.mk n cs) := by
  rw [Predicate.strings]
  exact List.mem_dedup.mpr (List.mem_cons_of_mem _ (mem_stringsOfChildren hc hx))

/-- C1 counterexample: with the five top-level leaves named `b`, `ba`,
`az`, `baz`, `bz`, the fuzzy lookup of `"baz"` over `byName` returns only
the predicate actually named `baz` — the claimed members `b`, `ba`, `az`
are not in the result (`name in test` selects keys that contain the search
string, not keys the search string contains). -/
theorem C1_counterexample :
    ((AnswerSet.lookup
        ⟨[.mk ['b'] [], .mk ['b', 'a'] [], .mk ['a', 'z'] [],
          .mk ['b', 'a', 'z'] [], .mk ['b', 'z'] []], 0⟩
        ['b', 'a', 'z'] false true).predicates.map Predicate.name) =
      [['b', 'a', 'z']] := rfl

/-- C1 (amended): fuzzy lookup selects the buckets of every index key that
contains the search string as a substring.  For the five leaves `b`, `ba`,
`az`, `baz`, `bz`: searching `"baz"` returns exactly `baz`; conversely the
searches `"b"`, `"ba"`, `"az"` each return a result containing `baz`, and
the search `"bz"` does not. -/
theorem C1_fuzzy_amended :
    ((AnswerSet.lookup
        ⟨[.mk ['b'] [], .mk ['b', 'a'] [], .mk ['a', 'z'] [],
          .mk ['b', 'a', 'z'] [], .mk ['b', 'z'] []], 0⟩
        ['b', 'a', 'z'] false true).predicates.map Predicate.name) =
      [['b', 'a', 'z']] ∧
    ((AnswerSet.lookup
        ⟨[.mk ['b'] [], .mk ['b', 'a'] [], .mk ['a', 'z'] [],
          .mk ['b', 'a', 'z'] [], .mk ['b', 'z'] []], 0⟩
        ['b'] false true).predicates.map Predicate.name) =
      [['b'], ['b', 'a'], ['b', 'a', 'z'], ['b', 'z']] ∧
    ((AnswerSet.lookup
        ⟨[.mk ['b'] [], .mk ['b', 'a'] [], .mk ['a', 'z'] [],
          .mk ['b', 'a', 'z'] [], .mk ['b', 'z'] []], 0⟩
        ['b', 'a'] false true).predicates.map Predicate.name) =
      [['b', 'a'], ['b', 'a', 'z']] ∧
    ((AnswerSet.lookup
        ⟨[.mk ['b'] [], .mk ['b', 'a'] [], .mk ['a', 'z'] [],
          .mk ['b', 'a', 'z'] [], .mk ['b', 'z'] []], 0⟩
        ['a', 'z'] false true).predicates.map Predicate.name) =
      [['a', 'z'], ['b', 'a', 'z']] ∧
    ((AnswerSet.lookup
        ⟨[.mk ['b'] [], .mk ['b', 'a'] [], .mk ['a', 'z'] [],
          .mk ['b', 'a', 'z'] [], .mk ['b', 'z'] []], 0⟩
        ['b', 'z'] false true).predicates.map Predicate.name) =
      [['b', 'z']] :=
  ⟨rfl, rfl, rfl, rfl, rfl⟩

/-- C2: evaluation of `scan` at the failing input `"a\,"` with target `,`:
the final comma is escaped, yet the post-loop `text[end] == target` test
(`parse.py:180`) does not consult the `escaped` flag, so the scanner splits
there (prefix `"a\"`, remainder `""`) instead of reporting no match, in
contradiction with its own docstring ("instances of the target character
that are quoted or escaped are ignored"). -/
theorem C2_escaped_final_split :
    scan ['a', '\\', ','] ',' true false = .ok (['a', '\\'], some []) := rfl

/-- C3 counterexample: on the empty text the two configuration checks are
never reached, because `if not text: return '', None` (`parse.py:134-135`)
precedes them — `scan("", '"', honorquotes=True)` returns the no-match pair
instead of raising. -/
theorem C3_counterexample : scan [] '"' true false = .ok ([], none) := rfl

/-- C3 (amended): for every NONEMPTY text, searching for `"` with
`honorquotes` or for a parenthesis with `honorparens` raises the
corresponding configuration `ValueError`, independent of the text's
content. -/
theorem C3_config_amended (text : List Char) (target : Char) (hq hp : Bool)
    (hne : text ≠ []) :
    (target = '"' ∧ hq = true → scan text target hq hp = .error .configQuote) ∧
    ((target = '(' ∨ target = ')') ∧ hp = true →
      scan text target hq hp = .error .configParen) := by
  constructor
  · rintro ⟨ht, hhq⟩
    subst ht
    subst hhq
    unfold scan
    rw [if_neg hne, if_pos ⟨rfl, rfl⟩]
  · rintro ⟨ht, hhp⟩
    subst hhp
    have hne2 : ¬(target = '"' ∧ hq = true) := by
      rintro ⟨h1, -⟩
      rcases ht with h | h <;> rw [h] at h1 <;> exact absurd h1 (by decide)
    unfold scan
    rw [if_neg hne, if_neg hne2, if_pos ⟨ht, rfl⟩]

/-- C3 witness: the amended theorem applied at concrete inputs. -/
theorem C3_witness :
    scan ['x'] '"' true false = .error .configQuote ∧
    scan ['x'] '(' true true = .error .configParen :=
  ⟨(C3_config_amended ['x'] '"' true false (by decide)).1 ⟨rfl, rfl⟩,
   (C3_config_amended ['x'] '(' true true (by decide)).2 ⟨Or.inl rfl, rfl⟩⟩

/-- C4 counterexample: `parse_predicate("foo(")` does not fail — `scan`
finds the `(` as the last character and hands back the empty-string
remainder `''`, which the `if not tail` test (`parse.py:94`) treats like
"no parenthesis found", so a leaf predicate named `foo` is returned. -/
theorem C4_counterexample :
    parse_predicate ['f', 'o', 'o', '('] = .ok (.mk ['f', 'o', 'o'] []) := by
  rw [parse_predicate]
  rfl

/-- C4 (amended): whenever `scan` finds an unescaped, unquoted `(` with a
NONEMPTY remainder, the name part decodes, and the term does not end in
`)`, `parse_predicate` fails with `MalformedPredicate` carrying the term;
but when the `(` is the term's last character the empty remainder is falsy
and a leaf predicate is returned instead (see the counterexample). -/
theorem C4_missing_paren_amended (term rawname tail nm : List Char)
    (hscan : scan term '(' true false = .ok (rawname, some tail))
    (hname : intended_name rawname = .ok nm)
    (hne : tail ≠ [])
    (hlast : tail.getLast? ≠ some ')') :
    parse_predicate term = .error (.malformedPredicate term) := by
  rw [parse_predicate]
  split
  · rename_i e heq
    rw [hscan] at heq
    simp at heq
  · rename_i rawname1 tl heq
    rw [hscan] at heq
    simp only [Except.ok.injEq, Prod.mk.injEq] at heq
    obtain ⟨h1, h2⟩ := heq
    subst h1
    subst h2
    rw [hname]
    dsimp only
    rw [if_neg hne, if_neg hlast]

/-- C4 witness: `parse_predicate("foo(bar")` fails with
`MalformedPredicate` carrying the term. -/
theorem C4_witness :
    parse_predicate ['f', 'o', 'o', '(', 'b', 'a', 'r'] =
      .error (.malformedPredicate ['f', 'o', 'o', '(', 'b', 'a', 'r']) :=
  C4_missing_paren_amended _ ['f', 'o', 'o'] ['b', 'a', 'r'] ['f', 'o', 'o']
    rfl rfl (by decide) (by decide)

/-- C5: evaluation of `intended_name` at a raw name with an odd number of
unescaped quotes (`"abc`): the final `if inquote:` branch (`parse.py:220`)
interpolates the variable `text`, which is undefined in `intended_name`, so
Python raises `NameError` while formatting — the promised `UnterminatedQuote`
`ValueError` with its context snippet is never constructed. -/
theorem C5_unterminated_nameerror :
    intended_name ['"', 'a', 'b', 'c'] = .error .nameErr := rfl

/-- C9: indexing a predicate always fails with `TypeError`: `p[key]` passes
one positional argument to `__getitem__`, which is declared
(`parse.py:376`) with two required positional parameters after `self`, so
the interpreter rejects the call before the body runs — even for valid
integer indices `0 <= key < arity`. -/
theorem C9_getitem_typeerror (p : Predicate) (key : Int) :
    Predicate.subscript p key = .error .typeErrMissingArg := rfl

/-- C10: a fuzzy nested lookup can return the same predicate more than
once: `oo(o)` has strings `{oo, o}`, both of which contain the search
string `o`, so the predicate is appended once per matching key — the
result is a concatenation of index buckets, not a duplicate-free union. -/
theorem C10_fuzzy_nested_duplicates :
    ∃ (A : AnswerSet) (nm : List Char) (p : Predicate),
      A.predicates = [p] ∧
      (A.lookup nm true true).predicates = [p, p] :=
  ⟨⟨[.mk ['o', 'o'] [.mk ['o'] []]], 0⟩, ['o'],
    .mk ['o', 'o'] [.mk ['o'] []], rfl, rfl⟩

/-- C6 counterexample: the answer set `[f("a,b")]` has names that need no
quoting in the renderer's sense (no space, parenthesis, backslash or
quote), yet `parseLine(render(A))` is not `A`: the child name `a,b` renders
bare inside the argument list, where its comma is a top-level separator, so
the reparse yields `f(a,b)` with two children `a` and `b`. -/
theorem C6_counterexample :
    NoQuoteNeeded (.mk ['f'] [.mk ['a', ',', 'b'] []]) ∧
    parse_set (AnswerSet.str ⟨[.mk ['f'] [.mk ['a', ',', 'b'] []]], 0⟩) 0 =
      .ok ⟨[.mk ['f'] [.mk ['a'] [], .mk ['b'] []]], 0⟩ ∧
    ¬ AnswerSet.eqPy ⟨[.mk ['f'] [.mk ['a'] [], .mk ['b'] []]], 0⟩
      ⟨[.mk ['f'] [.mk ['a', ',', 'b'] []]], 0⟩ := by
  refine ⟨by decide, ?_, ?_⟩
  · simp [parse_set, parse_set_loop, parse_predicate, parse_children, scan,
      scanLoop, intended_name, nameLoop, AnswerSet.str, strJoinSpace,
      Predicate.str, strJoinComma, needsQuoting]
  · intro hcontra
    unfold AnswerSet.eqPy at hcontra
    simp at hcontra

/-- C6 (amended): the round trip `parseLine(render(A)) == A` (equality of
the `predicates` tuples, as `AnswerSet.__eq__` compares) holds for every
answer set whose names are nonempty and additionally comma-free, on top of
the claim's no-space/paren/backslash/quote condition.  (The claim's own
condition is insufficient: commas in names, and empty names, break the
round trip — see the counterexample.) -/
theorem C6_roundtrip_amended (A : AnswerSet)
    (h : ∀ p ∈ A.predicates, GoodPred p) :
    ∃ B : AnswerSet, parse_set (AnswerSet.str A) 0 = .ok B ∧
      AnswerSet.eqPy B A :=
  ⟨⟨A.predicates, 0⟩, parse_set_render A h, rfl⟩

/-- C6 witness: the amended round trip at a concrete two-predicate answer
set with nesting. -/
theorem C6_witness :
    ∃ B : AnswerSet,
      parse_set (AnswerSet.str
        ⟨[.mk ['f'] [.mk ['a'] [], .mk ['b'] []], .mk ['g'] []], 7⟩) 0 =
        .ok B ∧
      AnswerSet.eqPy B
        ⟨[.mk ['f'] [.mk ['a'] [], .mk ['b'] []], .mk ['g'] []], 7⟩ :=
  C6_roundtrip_amended _ (by decide)

/-- C7: a term with an empty parenthesized argument block, `n ++ "()"` for
any name free of `(`, backslash and quote, parses to a predicate with
exactly one child, that child having the empty name and no children of its
own (`parse_children` on the empty block produces the one synthetic child
parsed from the empty string). -/
theorem C7_empty_parens (n : List Char)
    (h : ∀ c ∈ n, c ≠ '(' ∧ c ≠ '\\' ∧ c ≠ '"') :
    parse_predicate (n ++ ['(', ')']) = .ok (.mk n [.mk [] []]) := by
  have hscan : scan (n ++ '(' :: [')']) '(' true false = .ok (n, [')']) :=
    scan_split
      (carries_of_chars fun c hc =>
        ⟨(h c hc).2.1, (h c hc).2.2, fun hh => absurd hh (by decide),
          by rintro ⟨h1, -⟩; exact (h c hc).1 h1⟩)
      (by decide) (by decide) (by decide)
  rw [show n ++ ['(', ')'] = n ++ '(' :: [')'] from rfl]
  rw [parse_predicate]
  split
  · rename_i e heq
    rw [hscan] at heq
    simp at heq
  · rename_i rawname tl heq
    rw [hscan] at heq
    simp only [Except.ok.injEq, Prod.mk.injEq] at heq
    obtain ⟨h1, h2⟩ := heq
    subst h1
    subst h2
    rw [intended_name_plain fun c hc => ⟨(h c hc).2.1, (h c hc).2.2⟩]
    dsimp only
    rw [if_neg (by simp : ¬([')'] : List Char) = [])]
    rw [if_pos (show ([')'] : List Char).getLast? = some ')' from rfl)]
    rw [show ([')'] : List Char).dropLast = [] from rfl]
    rw [parse_children_nil]

/-- C7 witness: `parse_predicate("name()")`. -/
theorem C7_witness :
    parse_predicate ['n', 'a', 'm', 'e', '(', ')'] =
      .ok (.mk ['n', 'a', 'm', 'e'] [.mk [] []]) :=
  C7_empty_parens ['n', 'a', 'm', 'e'] (by decide)

/-- C8: for every predicate, `arity` equals the number of children, and the
`strings` set contains the predicate's own name and the name of every
descendant, transitively (established at construction, `parse.py:325-332`;
predicates are never mutated). -/
theorem C8_strings_arity_invariant (p : Predicate) :
    Predicate.arity p = p.children.length ∧
    p.name ∈ Predicate.strings p ∧
    ∀ q ∈ Predicate.descendants p, q.name ∈ Predicate.strings p := by
  refine ⟨rfl, name_mem_strings p, ?_⟩
  induction p using Predicate.ind_nested with
  | step n cs ih =>
    intro q hq
    rw [show Predicate.descendants (.mk n cs) = descendantsOfChildren cs
      from rfl] at hq
    obtain ⟨c, hc, hqc | hqc⟩ := mem_descendantsOfChildren.mp hq
    · rw [hqc]
      exact strings_mono hc (name_mem_strings c)
    · exact strings_mono hc (ih c hc q hqc)

/-- C8 witness: the invariant applied to `a(b)` and its descendant `b`. -/
theorem C8_witness :
    (Predicate.mk ['b'] []).name ∈
      Predicate.strings (.mk ['a'] [.mk ['b'] []]) :=
  (C8_strings_arity_invariant (.mk ['a'] [.mk ['b'] []])).2.2 (.mk ['b'] [])
    (show _ ∈ Predicate.descendants (.mk ['a'] [.mk ['b'] []]) from
      List.mem_cons_self _ _)
